import Mathlib

/-!
Verification development for the CSV search/replace engine
(`src/app/api/csv/process/route.ts`, the replace / fix-slug routes and the
client helpers in `src/unnamed/part_000` … `part_003`).

JavaScript strings are embedded as lists of Unicode code points
(`Str := List Nat`).  Platform regular-expression matching (the compiled
`RegExp` object) is abstracted as a boolean test function passed in as a
parameter; every other string operation used by the code
(`trim`, `toLowerCase`, `includes`, `indexOf`, `substring`, `endsWith`,
whitespace / character-class regex replaces) is embedded concretely with
ECMAScript semantics.
-/

namespace CsvAnalyze

/-- A JS string as its list of Unicode code points. -/
abbrev Str := List Nat

/-- Embed a Lean string literal as a `Str`. -/
def str (s : String) : Str := s.data.map Char.toNat

/-- ECMAScript whitespace (the `\s` class and the characters removed by
`String.prototype.trim`). -/
def isJsWs (n : Nat) : Bool :=
  decide (n = 9 ∨ n = 10 ∨ n = 11 ∨ n = 12 ∨ n = 13 ∨ n = 32 ∨ n = 160 ∨
    n = 0x1680 ∨ (0x2000 ≤ n ∧ n ≤ 0x200A) ∨ n = 0x2028 ∨ n = 0x2029 ∨
    n = 0x202F ∨ n = 0x205F ∨ n = 0x3000 ∨ n = 0xFEFF)

/-- ECMAScript `\w`: ASCII letters, digits and underscore. -/
def isWordChar (n : Nat) : Bool :=
  decide ((48 ≤ n ∧ n ≤ 57) ∨ (65 ≤ n ∧ n ≤ 90) ∨ (97 ≤ n ∧ n ≤ 122) ∨ n = 95)

/-- The combining diacritical marks range `[̀-ͯ]`. -/
def isCombiningMark (n : Nat) : Bool := decide (0x300 ≤ n ∧ n ≤ 0x36F)

/-- One code point of `String.prototype.toLowerCase`; ASCII letters are
lowered, every other code point relevant to this code base is fixed. -/
def jsLowerChar (n : Nat) : Nat := if 65 ≤ n ∧ n ≤ 90 then n + 32 else n

/-- `String.prototype.toLowerCase`. -/
def jsLower (l : Str) : Str := l.map jsLowerChar

/-- `String.prototype.trim`. -/
def jsTrim (l : Str) : Str := (l.dropWhile isJsWs).rdropWhile isJsWs

/-- `needle` occurs at the start of `hay` (`String.prototype.startsWith`). -/
def isPrefixOfL : Str → Str → Bool
  | [], _ => true
  | _ :: _, [] => false
  | a :: t, b :: u => decide (a = b) && isPrefixOfL t u

/-- `String.prototype.includes`. -/
def containsSub (needle : Str) : Str → Bool
  | [] => isPrefixOfL needle []
  | h :: t => isPrefixOfL needle (h :: t) || containsSub needle t

/-- `String.prototype.endsWith`. -/
def isSuffixOfL (needle hay : Str) : Bool := isPrefixOfL needle.reverse hay.reverse

/-- `String.prototype.indexOf`: position of the first occurrence of
`needle` in `hay`, or `none` (JS returns `-1`). -/
def firstIndexOfSub (needle : Str) : Str → Option Nat
  | [] => if isPrefixOfL needle [] then some 0 else none
  | h :: t =>
    if isPrefixOfL needle (h :: t) then some 0
    else (firstIndexOfSub needle t).map (· + 1)

/-! ### The Slug Normalizer (`normalizeToKebabCase`, `src/unnamed/part_000`) -/

/-- Modelled from ECMAScript `String.prototype.normalize('NFD')`, restricted
to the common Latin-1 / Latin Extended precomposed letters this application
encounters; NFD is the identity on ASCII code points, which the model keeps. -/
def nfdChar (n : Nat) : Str :=
  if n < 128 then [n]
  else if n = 0xC0 then [65, 0x300] else if n = 0xC1 then [65, 0x301]
  else if n = 0xC2 then [65, 0x302] else if n = 0xC3 then [65, 0x303]
  else if n = 0xC4 then [65, 0x308] else if n = 0xC5 then [65, 0x30A]
  else if n = 0xC7 then [67, 0x327] else if n = 0xC8 then [69, 0x300]
  else if n = 0xC9 then [69, 0x301] else if n = 0xCA then [69, 0x302]
  else if n = 0xCB then [69, 0x308] else if n = 0xCC then [73, 0x300]
  else if n = 0xCD then [73, 0x301] else if n = 0xCE then [73, 0x302]
  else if n = 0xCF then [73, 0x308] else if n = 0xD1 then [78, 0x303]
  else if n = 0xD2 then [79, 0x300] else if n = 0xD3 then [79, 0x301]
  else if n = 0xD4 then [79, 0x302] else if n = 0xD5 then [79, 0x303]
  else if n = 0xD6 then [79, 0x308] else if n = 0xD9 then [85, 0x300]
  else if n = 0xDA then [85, 0x301] else if n = 0xDB then [85, 0x302]
  else if n = 0xDC then [85, 0x308] else if n = 0xDD then [89, 0x301]
  else if n = 0xE0 then [97, 0x300] else if n = 0xE1 then [97, 0x301]
  else if n = 0xE2 then [97, 0x302] else if n = 0xE3 then [97, 0x303]
  else if n = 0xE4 then [97, 0x308] else if n = 0xE5 then [97, 0x30A]
  else if n = 0xE7 then [99, 0x327] else if n = 0xE8 then [101, 0x300]
  else if n = 0xE9 then [101, 0x301] else if n = 0xEA then [101, 0x302]
  else if n = 0xEB then [101, 0x308] else if n = 0xEC then [105, 0x300]
  else if n = 0xED then [105, 0x301] else if n = 0xEE then [105, 0x302]
  else if n = 0xEF then [105, 0x308] else if n = 0xF1 then [110, 0x303]
  else if n = 0xF2 then [111, 0x300] else if n = 0xF3 then [111, 0x301]
  else if n = 0xF4 then [111, 0x302] else if n = 0xF5 then [111, 0x303]
  else if n = 0xF6 then [111, 0x308] else if n = 0xF9 then [117, 0x300]
  else if n = 0xFA then [117, 0x301] else if n = 0xFB then [117, 0x302]
  else if n = 0xFC then [117, 0x308] else if n = 0xFD then [121, 0x301]
  else if n = 0xFF then [121, 0x308]
  else [n]

/-- `.normalize('NFD')` applied code point by code point. -/
def jsNfd : Str → Str
  | [] => []
  | c :: t => nfdChar c ++ jsNfd t

/-- `.replace(/[̀-ͯ]/g, '')`. -/
def removeMarks (l : Str) : Str := l.filter (fun n => !isCombiningMark n)

/-- `.replace(/\s+/g, '-')`: each maximal whitespace run becomes one hyphen. -/
def wsRuns : Str → Str
  | [] => []
  | [c] => if isJsWs c then [45] else [c]
  | c :: c2 :: t =>
    if isJsWs c then
      if isJsWs c2 then wsRuns (c2 :: t) else 45 :: wsRuns (c2 :: t)
    else c :: wsRuns (c2 :: t)

/-- `.replace(/[^\w-]/g, '')`. -/
def filterWord (l : Str) : Str := l.filter (fun n => isWordChar n || decide (n = 45))

/-- The hyphen-run collapse `.replace` step: each maximal run of hyphens
becomes one hyphen. -/
def collapseHyph : Str → Str
  | [] => []
  | [c] => [c]
  | c :: c2 :: t =>
    if c = 45 ∧ c2 = 45 then collapseHyph (c2 :: t)
    else c :: collapseHyph (c2 :: t)

/-- `.replace(/^-+|-+$/g, '')`. -/
def trimHyph (l : Str) : Str :=
  (l.dropWhile (fun n => decide (n = 45))).rdropWhile (fun n => decide (n = 45))

/-- `normalizeToKebabCase` from `src/unnamed/part_000` (lines 2987–3005):
NFD-decompose, remove diacritics, lowercase, collapse whitespace runs to a
hyphen, drop characters outside `[\w-]`, collapse hyphen runs, trim hyphens;
falsy input (the empty string) short-circuits to the empty string. -/
def normalizeToKebabCase (input : Str) : Str :=
  if input = [] then []
  else trimHyph (collapseHyph (filterWord (wsRuns (jsLower (removeMarks (jsNfd input))))))

example : normalizeToKebabCase (str "São Paulo") = str "sao-paulo" := by decide
example : normalizeToKebabCase (str "München") = str "munchen" := by decide
example : normalizeToKebabCase (str "New York") = str "new-york" := by decide
example : normalizeToKebabCase (str "SuZhou") = str "suzhou" := by decide

/-! ### Rows

A parsed CSV row (`Record<string, string>`); absent keys read as the empty
string, matching the `row[field] ?? ''` / `row[field] || ''` accesses. -/

def Row := Str → Str

/-- `row[field] = value`. -/
def setField (r : Row) (f v : Str) : Row := fun g => if g = f then v else r g

/-! ### `src/app/api/csv/process/route.ts` — advanced row matching -/

inductive MatchMode | contains | equals | regex | startsWith | endsWith
deriving DecidableEq

structure FieldSearchCondition where
  field : Str
  value : Str
  mode : MatchMode
deriving DecidableEq

inductive AdvancedLogic | AND | OR
deriving DecidableEq

structure AdvancedSearchConfig where
  conditions : List FieldSearchCondition
  logic : AdvancedLogic
  caseSensitive : Bool

/-- A platform regular-expression engine: `regexTest cs pattern input`
models `new RegExp(pattern, cs ? '' : 'i').test(input)`. -/
abbrev RegexTest := Bool → Str → Str → Bool

/-- `buildFieldMatcher` (route.ts lines 55–84). -/
def buildFieldMatcher (rt : RegexTest) (cond : FieldSearchCondition)
    (globalCaseSensitive : Bool) : Str → Bool :=
  match cond.mode with
  | .regex => fun raw => rt globalCaseSensitive cond.value raw
  | m =>
    let needle := if globalCaseSensitive then cond.value else jsLower cond.value
    fun raw =>
      let hay := if globalCaseSensitive then raw else jsLower raw
      match m with
      | .equals => decide (hay = needle)
      | .startsWith => isPrefixOfL needle hay
      | .endsWith => isSuffixOfL needle hay
      | _ => containsSub needle hay

/-- A condition is kept as active iff `c.value && c.value.trim() !== ''`
(route.ts lines 97–99). -/
def isActiveCond (c : FieldSearchCondition) : Bool :=
  !decide (c.value = []) && !decide (jsTrim c.value = [])

/-- The AND loop of `rowMatchesAdvanced` (route.ts lines 113–123). -/
def andConds (headers : List Str) (r : Row) :
    List (FieldSearchCondition × (Str → Bool)) → Bool × List Str
  | [] => (true, [])
  | (c, m) :: rest =>
    if c.field ∈ headers then
      if m (r c.field) then
        let a := andConds headers r rest
        if a.1 then (true, c.field :: a.2) else (false, [])
      else (false, [])
    else (false, [])

/-- The OR loop of `rowMatchesAdvanced` (route.ts lines 126–135). -/
def orConds (headers : List Str) (r : Row)
    (ms : List (FieldSearchCondition × (Str → Bool))) : List Str :=
  ms.filterMap fun (c, m) =>
    if c.field ∈ headers ∧ m (r c.field) = true then some c.field else none

/-- `rowMatchesAdvanced` (route.ts lines 86–136): blank-valued conditions are
filtered out; with no active conditions every row matches; otherwise the
active conditions are combined with AND or OR logic. -/
def rowMatchesAdvanced (rt : RegexTest) (r : Row) (headers : List Str)
    (advanced : AdvancedSearchConfig) : Bool × List Str :=
  let activeConds := advanced.conditions.filter isActiveCond
  if activeConds = [] then (true, [])
  else
    let fieldMatchers := activeConds.map fun c =>
      (c, buildFieldMatcher rt c advanced.caseSensitive)
    match advanced.logic with
    | .AND => andConds headers r fieldMatchers
    | .OR =>
      let fs := orConds headers r fieldMatchers
      (!decide (fs = []), fs)

/-! ### `route.ts` — the simple-mode flow (POST, lines 280–425)

The compiled search regex built from `searchTerm` / `caseSensitive` /
`wholeWord` / `useRegex` is a platform object; it is abstracted as the
boolean row-text test `test`. -/

/-- Space-join of all field values of a row (route.ts lines 295–297). -/
def rowText (searchFields : List Str) (r : Row) : Str :=
  match searchFields with
  | [] => []
  | [f] => r f
  | f :: rest => r f ++ 32 :: rowText rest r

/-- Target-field selection (route.ts lines 247–250). -/
def computeReplaceFields (selectedFields headers : List Str) : List Str :=
  if str "All" ∈ selectedFields ∨ selectedFields = [] then headers
  else selectedFields.filter (fun f => decide (f ∈ headers))

/-- Simple-mode replace of one row (route.ts lines 335–352): each target
field is overwritten with `replaceTerm` whenever that differs from the old
value; returns the new row and the number of replacements counted. -/
def simpleReplaceRow : List Str → Str → Row → Row × Nat
  | [], _, r => (r, 0)
  | field :: rest, replaceTerm, r =>
    let oldValue := r field
    if replaceTerm ≠ oldValue then
      let a := simpleReplaceRow rest replaceTerm (setField r field replaceTerm)
      (a.1, a.2 + 1)
    else simpleReplaceRow rest replaceTerm r

/-- `replaceTerm !== undefined && replaceTerm !== ''` (route.ts line 284). -/
def isSimpleReplaceMode : Option Str → Bool
  | some t => !decide (t = [])
  | none => false

structure FileReport where
  processedRows : List Row
  fileMatches : Nat
  fileReplacements : Nat

/-- The per-row body of the simple-mode loop (route.ts lines 286–377),
accumulated over all rows of a file. -/
def simpleProcessRows (test : Str → Bool) (showOnlyMatches : Bool)
    (searchFields replaceFields : List Str) (replaceTerm : Option Str) :
    List Row → FileReport
  | [] => ⟨[], 0, 0⟩
  | r :: rest =>
    let rec_ := simpleProcessRows test showOnlyMatches searchFields replaceFields
      replaceTerm rest
    if test (rowText searchFields r) then
      if isSimpleReplaceMode replaceTerm then
        let a := simpleReplaceRow replaceFields (replaceTerm.getD []) r
        ⟨a.1 :: rec_.processedRows, rec_.fileMatches + 1, a.2 + rec_.fileReplacements⟩
      else
        ⟨r :: rec_.processedRows, rec_.fileMatches + 1, rec_.fileReplacements⟩
    else
      if showOnlyMatches then rec_
      else ⟨r :: rec_.processedRows, rec_.fileMatches, rec_.fileReplacements⟩

inductive SaveMode | filebrowser | overwrite | local
deriving DecidableEq

/-- The simple-mode per-file persistence decision (route.ts lines 381–417):
an output artifact is produced exactly when a non-empty `replaceTerm` was
supplied, in every save mode, with the processed rows as content. -/
def simpleFileOutput (replaceTerm : Option Str) (saveMode : SaveMode)
    (report : FileReport) : Option (SaveMode × List Row) :=
  match replaceTerm with
  | some t => if t ≠ [] then some (saveMode, report.processedRows) else none
  | none => none

/-- `stats.processedFiles++` for the simple-mode flow (route.ts lines
424–425): unconditional for every successfully processed file. -/
def simpleProcessedInc (_report : FileReport) : Nat := 1

/-! ### `route.ts` — the advanced-mode flow
(`processFilesWithAdvancedSearch`, lines 474–681) -/

structure MatchEvent where
  field : Str
  oldValue : Str
  newValue : Str
deriving DecidableEq

/-- `!!(replaceTargetField && replaceValue !== undefined)` (route.ts 496). -/
def isAdvancedReplaceMode (replaceTargetField replaceValue : Option Str) : Bool :=
  match replaceTargetField with
  | some f => !decide (f = []) && replaceValue.isSome
  | none => false

/-- The per-row body of the advanced loop (route.ts lines 543–618),
accumulated over all rows of a file. -/
def advancedProcessRows (rt : RegexTest) (advanced : AdvancedSearchConfig)
    (headers : List Str) (replaceTargetField replaceValue : Option Str)
    (showOnlyMatches : Bool) : List Row → FileReport
  | [] => ⟨[], 0, 0⟩
  | r :: rest =>
    let rec_ := advancedProcessRows rt advanced headers replaceTargetField
      replaceValue showOnlyMatches rest
    let m := rowMatchesAdvanced rt r headers advanced
    if m.1 then
      let tf := replaceTargetField.getD []
      let e :=
        if isAdvancedReplaceMode replaceTargetField replaceValue ∧ tf ∈ headers then
          let oldValue := r tf
          let newValue := replaceValue.getD []
          if newValue ≠ oldValue then
            (setField r tf newValue, [MatchEvent.mk tf oldValue newValue], 1)
          else (r, ([] : List MatchEvent), 0)
        else (r, m.2.map (fun f => MatchEvent.mk f (r f) (r f)), 0)
      if ¬showOnlyMatches ∨ e.2.1 ≠ [] then
        ⟨e.1 :: rec_.processedRows, rec_.fileMatches + 1, e.2.2 + rec_.fileReplacements⟩
      else
        ⟨rec_.processedRows, rec_.fileMatches + 1, e.2.2 + rec_.fileReplacements⟩
    else
      if showOnlyMatches then rec_
      else ⟨r :: rec_.processedRows, rec_.fileMatches, rec_.fileReplacements⟩

/-- Advanced-mode persistence decision (route.ts lines 622–647): output is
produced exactly when replace mode is active, in every save mode. -/
def advancedFileOutput (replaceTargetField replaceValue : Option Str)
    (saveMode : SaveMode) (report : FileReport) : Option (SaveMode × List Row) :=
  if isAdvancedReplaceMode replaceTargetField replaceValue then
    some (saveMode, report.processedRows)
  else none

/-- `stats.processedFiles++` in the advanced flow (route.ts line 650):
unconditional for every successfully processed file. -/
def advancedProcessedInc (_report : FileReport) : Nat := 1

/-! ### The multi-operation replace route (`src/unnamed/part_002`,
second file, lines 322–666) -/

structure ReplaceOp where
  field : Str
  value : Str

/-- The operation loop of the replace route (part_002 lines 493–518):
apply each operation whose field exists in the headers, count changes, and
remember the last replacement that changed the `location` field. -/
def applyOperations (headers : List Str) : List ReplaceOp → Row →
    Row × Nat × Option (Str × Str)
  | [], r => (r, 0, none)
  | op :: rest, r =>
    if op.field ∈ headers then
      let oldValue := r op.field
      if oldValue ≠ op.value then
        let a := applyOperations headers rest (setField r op.field op.value)
        (a.1, a.2.1 + 1,
          a.2.2.orElse fun _ =>
            if op.field = str "location" then some (oldValue, op.value) else none)
      else applyOperations headers rest r
    else applyOperations headers rest r

/-- The slug_url recomputation (part_002 lines 521–558): if `location` was
just replaced and the (trimmed) `slug_url` contains `-salary`, rebuild it
from the substring ending at the first `-salary` occurrence plus the
kebab-normalized new location. -/
def slugUpdate (headers : List Str) : Option (Str × Str) → Row → Row × Nat
  | none, r => (r, 0)
  | some lr, r =>
    if str "slug_url" ∈ headers then
      let currentSlugUrl := jsTrim (r (str "slug_url"))
      if containsSub (str "-salary") currentSlugUrl then
        match firstIndexOfSub (str "-salary") currentSlugUrl with
        | some salaryIndex =>
          let baseSlug := currentSlugUrl.take (salaryIndex + 7)
          let normalizedNewLocation := normalizeToKebabCase lr.2
          let newSlugUrl :=
            if normalizedNewLocation ≠ [] then baseSlug ++ 45 :: normalizedNewLocation
            else baseSlug
          if newSlugUrl ≠ currentSlugUrl then
            (setField r (str "slug_url") newSlugUrl, 1)
          else (r, 0)
        | none => (r, 0)
      else (r, 0)
    else (r, 0)

/-- One row of the replace route (part_002 lines 479–559): rows whose index
is in the search-result set get the operations plus the derived slug_url
update; all other rows pass through unchanged. -/
def processRowReplace (headers : List Str) (ops : List ReplaceOp)
    (inSet : Bool) (r : Row) : Row × Nat :=
  if inSet then
    let a := applyOperations headers ops r
    let s := slugUpdate headers a.2.2 a.1
    (s.1, a.2.1 + s.2)
  else (r, 0)

/-- The row loop of the replace route, with `i` the 0-based position of the
first row of the remaining list; `rowsToReplace` holds the submitted
`rowIndex - 1` values as JS numbers (part_002 lines 471–479). -/
def processRowsReplace (headers : List Str) (ops : List ReplaceOp)
    (rowsToReplace : List Int) : Nat → List Row → List Row × Nat
  | _, [] => ([], 0)
  | i, r :: rest =>
    let a := processRowReplace headers ops (decide ((i : Int) ∈ rowsToReplace)) r
    let b := processRowsReplace headers ops rowsToReplace (i + 1) rest
    (a.1 :: b.1, a.2 + b.2)

structure FileRun where
  processedRows : List Row
  replacements : Nat
  output : Option (SaveMode × List Row)
  processedInc : Nat

/-- One file of the replace route (part_002 lines 470–626): the submitted
1-based `rowIndex` values become the 0-based replacement set; output is
saved and `processedFiles` incremented only when `fileReplacements > 0`. -/
def replaceFileRun (headers : List Str) (ops : List ReplaceOp)
    (searchRowIndices : List Int) (saveMode : SaveMode) (rows : List Row) :
    FileRun :=
  let rowsToReplace := searchRowIndices.map (· - 1)
  let a := processRowsReplace headers ops rowsToReplace 0 rows
  { processedRows := a.1
    replacements := a.2
    output := if 0 < a.2 then some (saveMode, a.1) else none
    processedInc := if 0 < a.2 then 1 else 0 }

/-- The client-side value interpretation of `startReplace`
(part_000 lines 1348–1356): the literal `"empty"` (trimmed,
case-insensitive) maps to the empty string. -/
def interpretReplaceValue (v : Str) : Str :=
  if jsLower (jsTrim v) = str "empty" then [] else v

/-! ### The fix-slug-URLs route (`src/unnamed/part_003`) -/

/-- One targeted row of the fix-slug route (part_003 lines 155–182):
if the trimmed `slug_url` ends with `-salary`, the trimmed `location`
normalizes to a non-empty slug, and the expected `-salary-<slug>` suffix is
not already present, append `-<slug>`. -/
def fixSlugRow (r : Row) : Row × Nat :=
  let currentSlugUrl := jsTrim (r (str "slug_url"))
  let location := jsTrim (r (str "location"))
  let normalizedLocation := normalizeToKebabCase location
  if isSuffixOfL (str "-salary") currentSlugUrl then
    if normalizedLocation ≠ [] then
      let expectedSuffix := str "-salary" ++ 45 :: normalizedLocation
      if ¬(isSuffixOfL expectedSuffix currentSlugUrl = true) then
        (setField r (str "slug_url") (currentSlugUrl ++ 45 :: normalizedLocation), 1)
      else (r, 0)
    else (r, 0)
  else (r, 0)

/-- The row loop of the fix-slug route (part_003 lines 146–202). -/
def processRowsFix (rowsToFix : List Int) : Nat → List Row → List Row × Nat
  | _, [] => ([], 0)
  | i, r :: rest =>
    let a := if (i : Int) ∈ rowsToFix then fixSlugRow r else (r, 0)
    let b := processRowsFix rowsToFix (i + 1) rest
    (a.1 :: b.1, a.2 + b.2)

/-- One file of the fix-slug route (part_003 lines 137–240): output is
saved and `processedFiles` incremented only when `fileFixes > 0`. -/
def fixFileRun (searchRowIndices : List Int) (saveMode : SaveMode)
    (rows : List Row) : FileRun :=
  let rowsToFix := searchRowIndices.map (· - 1)
  let a := processRowsFix rowsToFix 0 rows
  { processedRows := a.1
    replacements := a.2
    output := if 0 < a.2 then some (saveMode, a.1) else none
    processedInc := if 0 < a.2 then 1 else 0 }

/-- Modelled from the spec: the in-place regex substitution
`value.replace(regex, replacement)` that §4.4 pathway 1 claims for simple
mode, instantiated for a literal (escaped) search term — every occurrence of
`needle` is replaced by `repl`, non-matched portions preserved. -/
def specRegexSubstituteAux (needle repl : Str) : Nat → Str → Str
  | _, [] => []
  | 0, l => l
  | fuel + 1, h :: t =>
    if isPrefixOfL needle (h :: t) ∧ needle ≠ [] then
      repl ++ specRegexSubstituteAux needle repl fuel (t.drop (needle.length - 1))
    else h :: specRegexSubstituteAux needle repl fuel t

/-- Modelled from the spec (wrapper): enough fuel for the whole input. -/
def specRegexSubstitute (needle repl l : Str) : Str :=
  specRegexSubstituteAux needle repl l.length l

example : specRegexSubstitute (str "b") (str "X") (str "abcb") = str "aXcX" := by decide

/-! ### Character-class facts about the Slug Normalizer output -/

/-- The output alphabet of the normalizer: lowercase ASCII letters, digits,
underscore and hyphen. -/
def isLowerKebab (n : Nat) : Prop :=
  (48 ≤ n ∧ n ≤ 57) ∨ (97 ≤ n ∧ n ≤ 122) ∨ n = 95 ∨ n = 45

lemma isLowerKebab_lt_128 {n : Nat} (h : isLowerKebab n) : n < 128 := by
  rcases h with h | h | h | h <;> omega

lemma isLowerKebab_not_ws {n : Nat} (h : isLowerKebab n) : isJsWs n = false := by
  simp only [isJsWs, decide_eq_false_iff_not]
  rcases h with h | h | h | h <;> omega

lemma isLowerKebab_not_mark {n : Nat} (h : isLowerKebab n) :
    isCombiningMark n = false := by
  simp only [isCombiningMark, decide_eq_false_iff_not]
  rcases h with h | h | h | h <;> omega

lemma isLowerKebab_not_upper {n : Nat} (h : isLowerKebab n) : ¬(65 ≤ n ∧ n ≤ 90) := by
  rcases h with h | h | h | h <;> omega

lemma isLowerKebab_word_or_hyph {n : Nat} (h : isLowerKebab n) :
    (isWordChar n || decide (n = 45)) = true := by
  simp only [isWordChar, Bool.or_eq_true, decide_eq_true_eq]
  rcases h with h | h | h | h <;> omega

lemma jsLowerChar_not_upper (d : Nat) :
    ¬(65 ≤ jsLowerChar d ∧ jsLowerChar d ≤ 90) := by
  unfold jsLowerChar
  split <;> omega

/-! ### Membership propagation through the normalizer stages -/

lemma mem_wsRuns : ∀ {l : Str} {c : Nat}, c ∈ wsRuns l → c ∈ l ∨ c = 45
  | [], _, h => by simp [wsRuns] at h
  | [a], c, h => by
    by_cases ha : isJsWs a <;> simp [wsRuns, ha] at h <;> simp [h]
  | a :: b :: t, c, h => by
    rw [wsRuns] at h
    by_cases ha : isJsWs a
    · by_cases hb : isJsWs b
      · rw [if_pos ha, if_pos hb] at h
        rcases mem_wsRuns h with h' | h'
        · exact Or.inl (List.mem_cons_of_mem a h')
        · exact Or.inr h'
      · rw [if_pos ha, if_neg hb] at h
        rcases List.mem_cons.mp h with h' | h'
        · exact Or.inr h'
        · rcases mem_wsRuns h' with h'' | h''
          · exact Or.inl (List.mem_cons_of_mem a h'')
          · exact Or.inr h''
    · rw [if_neg ha] at h
      rcases List.mem_cons.mp h with h' | h'
      · exact Or.inl (h' ▸ List.mem_cons_self a (b :: t))
      · rcases mem_wsRuns h' with h'' | h''
        · exact Or.inl (List.mem_cons_of_mem a h'')
        · exact Or.inr h''

lemma mem_collapseHyph : ∀ {l : Str} {c : Nat}, c ∈ collapseHyph l → c ∈ l
  | [], _, h => h
  | [_], _, h => h
  | a :: b :: t, c, h => by
    rw [collapseHyph] at h
    by_cases hab : a = 45 ∧ b = 45
    · rw [if_pos hab] at h
      exact List.mem_cons_of_mem a (mem_collapseHyph h)
    · rw [if_neg hab] at h
      rcases List.mem_cons.mp h with h' | h'
      · exact h' ▸ List.mem_cons_self a (b :: t)
      · exact List.mem_cons_of_mem a (mem_collapseHyph h')

lemma mem_trimHyph {l : Str} {c : Nat} (h : c ∈ trimHyph l) : c ∈ l := by
  unfold trimHyph at h
  exact (List.dropWhile_suffix _).sublist.subset
    (( List.rdropWhile_prefix _ _).sublist.subset h)

lemma mem_normalizeToKebabCase {s : Str} {c : Nat}
    (h : c ∈ normalizeToKebabCase s) : isLowerKebab c := by
  unfold normalizeToKebabCase at h
  split at h
  · simp at h
  · have h2 := mem_collapseHyph (mem_trimHyph h)
    have h3 := List.mem_filter.mp h2
    rcases mem_wsRuns h3.1 with h4 | h4
    · obtain ⟨d, _, hd⟩ := List.mem_map.mp h4
      have hup : ¬(65 ≤ c ∧ c ≤ 90) := hd ▸ jsLowerChar_not_upper d
      have hw := h3.2
      simp only [isWordChar, Bool.or_eq_true, decide_eq_true_eq] at hw
      unfold isLowerKebab
      omega
    · unfold isLowerKebab
      omega

/-! ### Stage-identity lemmas on the output alphabet -/

lemma jsNfd_eq_self : ∀ {l : Str}, (∀ c ∈ l, c < 128) → jsNfd l = l
  | [], _ => rfl
  | c :: t, h => by
    have hc : c < 128 := h c (List.mem_cons_self c t)
    have ht := jsNfd_eq_self (fun x hx => h x (List.mem_cons_of_mem c hx))
    simp [jsNfd, nfdChar, hc, ht]

lemma removeMarks_eq_self {l : Str} (h : ∀ c ∈ l, isCombiningMark c = false) :
    removeMarks l = l :=
  List.filter_eq_self.mpr fun a ha => by simp [h a ha]

lemma jsLower_eq_self : ∀ {l : Str}, (∀ c ∈ l, ¬(65 ≤ c ∧ c ≤ 90)) → jsLower l = l
  | [], _ => rfl
  | c :: t, h => by
    have hc := h c (List.mem_cons_self c t)
    have ht := jsLower_eq_self (fun x hx => h x (List.mem_cons_of_mem c hx))
    simp only [jsLower, List.map_cons] at ht ⊢
    rw [ht]
    unfold jsLowerChar
    rw [if_neg hc]

lemma wsRuns_eq_self : ∀ {l : Str}, (∀ c ∈ l, isJsWs c = false) → wsRuns l = l
  | [], _ => rfl
  | [a], h => by simp [wsRuns, h a (List.mem_cons_self a [])]
  | a :: b :: t, h => by
    have ha := h a (List.mem_cons_self a (b :: t))
    have ht := wsRuns_eq_self (l := b :: t)
      (fun x hx => h x (List.mem_cons_of_mem a hx))
    rw [wsRuns, if_neg (by simp [ha]), ht]

lemma filterWord_eq_self {l : Str}
    (h : ∀ c ∈ l, (isWordChar c || decide (c = 45)) = true) : filterWord l = l :=
  List.filter_eq_self.mpr h

/-- `l` has no two adjacent hyphens. -/
def HyphChain (l : Str) : Prop := List.Chain' (fun a b => ¬(a = 45 ∧ b = 45)) l

lemma collapseHyph_eq_self : ∀ {l : Str}, HyphChain l → collapseHyph l = l
  | [], _ => rfl
  | [_], _ => rfl
  | a :: b :: t, h => by
    obtain ⟨hab, ht⟩ := List.chain'_cons.mp h
    rw [collapseHyph, if_neg hab, collapseHyph_eq_self ht]

lemma dropWhile_eq_self_of_head {p : Nat → Bool} :
    ∀ {l : Str}, (∀ a, l.head? = some a → p a = false) → l.dropWhile p = l
  | [], _ => rfl
  | a :: t, h => by
    rw [List.dropWhile_cons, if_neg (by simp [h a rfl])]

lemma rdropWhile_eq_self_of_last {p : Nat → Bool} {l : Str}
    (h : ∀ a, l.getLast? = some a → p a = false) : l.rdropWhile p = l := by
  rw [List.rdropWhile_eq_self_iff]
  intro hl
  have := h (l.getLast hl) (List.getLast?_eq_getLast l hl)
  simp [this]

lemma trimHyph_eq_self {l : Str} (h1 : ∀ a, l.head? = some a → a ≠ 45)
    (h2 : ∀ a, l.getLast? = some a → a ≠ 45) : trimHyph l = l := by
  unfold trimHyph
  rw [dropWhile_eq_self_of_head (fun a ha => by simp [h1 a ha])]
  exact rdropWhile_eq_self_of_last (fun a ha => by simp [h2 a ha])

/-! ### Invariants established by the final normalizer stages -/

lemma collapseHyph_head? : ∀ (b : Nat) (t : Str),
    (collapseHyph (b :: t)).head? = some b
  | _, [] => rfl
  | b, c :: t => by
    rw [collapseHyph]
    by_cases h : b = 45 ∧ c = 45
    · rw [if_pos h, collapseHyph_head? c t, h.1, h.2]
    · rw [if_neg h]
      rfl

lemma hyphChain_collapseHyph : ∀ (l : Str), HyphChain (collapseHyph l)
  | [] => List.chain'_nil
  | [a] => List.chain'_singleton a
  | a :: b :: t => by
    rw [collapseHyph]
    by_cases h : a = 45 ∧ b = 45
    · rw [if_pos h]
      exact hyphChain_collapseHyph (b :: t)
    · rw [if_neg h]
      refine List.Chain'.cons' (hyphChain_collapseHyph (b :: t)) ?_
      intro y hy
      rw [collapseHyph_head? b t] at hy
      cases hy
      exact h

lemma head?_dropWhile_not {p : Nat → Bool} :
    ∀ {l : Str} {a : Nat}, (l.dropWhile p).head? = some a → p a = false
  | [], a, h => by simp [List.dropWhile] at h
  | b :: t, a, h => by
    by_cases hb : p b
    · rw [List.dropWhile_cons_of_pos hb] at h
      exact head?_dropWhile_not h
    · rw [List.dropWhile_cons_of_neg hb] at h
      cases h
      simpa using hb

lemma head?_rdropWhile {p : Nat → Bool} {l : Str} {a : Nat}
    (h : (l.rdropWhile p).head? = some a) : l.head? = some a := by
  obtain ⟨t, ht⟩ := List.rdropWhile_prefix p l
  cases hr : l.rdropWhile p with
  | nil => rw [hr] at h; cases h
  | cons x xs =>
    rw [hr] at h ht
    cases h
    rw [← ht]
    rfl

lemma getLast?_rdropWhile_not {p : Nat → Bool} {l : Str} {a : Nat}
    (h : (l.rdropWhile p).getLast? = some a) : p a = false := by
  have hne : l.rdropWhile p ≠ [] := by
    intro h0
    rw [h0] at h
    cases h
  have hnot := List.rdropWhile_last_not p l hne
  have hgl := List.getLast?_eq_getLast (l.rdropWhile p) hne
  rw [h] at hgl
  cases hgl
  simpa using hnot

lemma trimHyph_head_ne {l : Str} {a : Nat}
    (h : (trimHyph l).head? = some a) : a ≠ 45 := by
  have := head?_dropWhile_not (head?_rdropWhile h)
  simpa using this

lemma trimHyph_getLast_ne {l : Str} {a : Nat}
    (h : (trimHyph l).getLast? = some a) : a ≠ 45 := by
  have := getLast?_rdropWhile_not h
  simpa using this

lemma hyphChain_trimHyph {l : Str} (h : HyphChain l) : HyphChain (trimHyph l) := by
  unfold trimHyph
  exact List.Chain'.prefix ( List.Chain'.suffix h (List.dropWhile_suffix _))
    ( List.rdropWhile_prefix _ _)

/-- C4 core: the Slug Normalizer is idempotent. -/
lemma normalizeToKebabCase_idem (input : Str) :
    normalizeToKebabCase (normalizeToKebabCase input) = normalizeToKebabCase input := by
  by_cases h0 : input = []
  · subst h0
    simp [normalizeToKebabCase]
  · have hre : normalizeToKebabCase input =
        trimHyph (collapseHyph (filterWord (wsRuns (jsLower (removeMarks (jsNfd input)))))) := by
      rw [normalizeToKebabCase, if_neg h0]
    set r := normalizeToKebabCase input with hrdef
    by_cases hr : r = []
    · rw [hr]
      simp [normalizeToKebabCase]
    · have hmem : ∀ c ∈ r, isLowerKebab c := fun c hc => mem_normalizeToKebabCase hc
      have hchain : HyphChain r := by
        rw [hre]
        exact hyphChain_trimHyph (hyphChain_collapseHyph _)
      have hhead : ∀ a, r.head? = some a → a ≠ 45 := by
        rw [hre]
        exact fun a ha => trimHyph_head_ne ha
      have hlast : ∀ a, r.getLast? = some a → a ≠ 45 := by
        rw [hre]
        exact fun a ha => trimHyph_getLast_ne ha
      rw [normalizeToKebabCase, if_neg hr]
      rw [jsNfd_eq_self (fun c hc => isLowerKebab_lt_128 (hmem c hc))]
      rw [removeMarks_eq_self (fun c hc => isLowerKebab_not_mark (hmem c hc))]
      rw [jsLower_eq_self (fun c hc => isLowerKebab_not_upper (hmem c hc))]
      rw [wsRuns_eq_self (fun c hc => isLowerKebab_not_ws (hmem c hc))]
      rw [filterWord_eq_self (fun c hc => isLowerKebab_word_or_hyph (hmem c hc))]
      rw [collapseHyph_eq_self hchain]
      exact trimHyph_eq_self hhead hlast

/-! ### Substring-test bridging lemmas -/

lemma isPrefixOfL_iff : ∀ {a b : Str}, isPrefixOfL a b = true ↔ a <+: b
  | [], b => by simp [isPrefixOfL, List.nil_prefix]
  | x :: t, [] => by simp [isPrefixOfL]
  | x :: t, y :: u => by
    simp only [isPrefixOfL, Bool.and_eq_true, decide_eq_true_eq, List.cons_prefix_cons]
    exact and_congr Iff.rfl isPrefixOfL_iff

lemma isSuffixOfL_iff {a b : Str} : isSuffixOfL a b = true ↔ a <:+ b := by
  rw [isSuffixOfL, isPrefixOfL_iff]
  exact List.reverse_prefix

lemma containsSub_iff : ∀ {a b : Str}, containsSub a b = true ↔ a <:+: b
  | a, [] => by
    rw [containsSub, isPrefixOfL_iff]
    simp
  | a, x :: t => by
    rw [containsSub, Bool.or_eq_true, isPrefixOfL_iff, containsSub_iff,
      List.infix_cons_iff]

lemma firstIndexOfSub_isSome :
    ∀ {b a : Str}, containsSub a b = true → (firstIndexOfSub a b).isSome = true
  | [], a, h => by
    rw [containsSub] at h
    simp [firstIndexOfSub, h]
  | x :: t, a, h => by
    rw [containsSub, Bool.or_eq_true] at h
    rw [firstIndexOfSub]
    by_cases hp : isPrefixOfL a (x :: t) = true
    · simp [hp]
    · rcases h with h | h
      · exact absurd h hp
      · rw [if_neg hp]
        have hs := firstIndexOfSub_isSome h
        cases hfi : firstIndexOfSub a t with
        | none => rw [hfi] at hs; cases hs
        | some v => simp [hfi]

/-! ### Trim and field-update facts -/

lemma jsTrim_eq_self {l : Str} (h1 : ∀ a, l.head? = some a → isJsWs a = false)
    (h2 : ∀ a, l.getLast? = some a → isJsWs a = false) : jsTrim l = l := by
  rw [jsTrim, dropWhile_eq_self_of_head h1]
  exact rdropWhile_eq_self_of_last h2

lemma jsTrim_head_not_ws {l : Str} {a : Nat}
    (h : (jsTrim l).head? = some a) : isJsWs a = false :=
  head?_dropWhile_not (head?_rdropWhile h)

lemma setField_same (r : Row) (f v : Str) : setField r f v f = v := by
  simp [setField]

lemma setField_ne (r : Row) {f g : Str} (v : Str) (h : g ≠ f) :
    setField r f v g = r g := by
  simp [setField, h]

/-! ### Idempotence of the fix-slug row operation -/

lemma fixSlugRow_eq_of_not_suffix {r : Row}
    (h : ¬ isSuffixOfL (str "-salary") (jsTrim (r (str "slug_url"))) = true) :
    fixSlugRow r = (r, 0) := by
  rw [fixSlugRow]
  simp only [if_neg h]

lemma fixSlugRow_eq_of_norm_nil {r : Row}
    (h : normalizeToKebabCase (jsTrim (r (str "location"))) = []) :
    fixSlugRow r = (r, 0) := by
  rw [fixSlugRow]
  simp [h]

lemma fixSlugRow_eq_of_expected {r : Row}
    (h : isSuffixOfL
      (str "-salary" ++ 45 :: normalizeToKebabCase (jsTrim (r (str "location"))))
      (jsTrim (r (str "slug_url"))) = true) :
    fixSlugRow r = (r, 0) := by
  rw [fixSlugRow]
  simp [h]

lemma fixSlugRow_eq_fix {r : Row}
    (h1 : isSuffixOfL (str "-salary") (jsTrim (r (str "slug_url"))) = true)
    (h2 : normalizeToKebabCase (jsTrim (r (str "location"))) ≠ [])
    (h3 : ¬ isSuffixOfL
      (str "-salary" ++ 45 :: normalizeToKebabCase (jsTrim (r (str "location"))))
      (jsTrim (r (str "slug_url"))) = true) :
    fixSlugRow r = (setField r (str "slug_url")
      (jsTrim (r (str "slug_url")) ++
        45 :: normalizeToKebabCase (jsTrim (r (str "location")))), 1) := by
  rw [fixSlugRow]
  simp [h1, h2, h3]

lemma fixSlugRow_idem (r : Row) :
    fixSlugRow (fixSlugRow r).1 = ((fixSlugRow r).1, 0) := by
  by_cases h1 : isSuffixOfL (str "-salary") (jsTrim (r (str "slug_url"))) = true
  · by_cases h2 : normalizeToKebabCase (jsTrim (r (str "location"))) = []
    · rw [fixSlugRow_eq_of_norm_nil h2]
      exact fixSlugRow_eq_of_norm_nil h2
    · by_cases h3 : isSuffixOfL
          (str "-salary" ++ 45 :: normalizeToKebabCase (jsTrim (r (str "location"))))
          (jsTrim (r (str "slug_url"))) = true
      · rw [fixSlugRow_eq_of_expected h3]
        exact fixSlugRow_eq_of_expected h3
      · rw [fixSlugRow_eq_fix h1 h2 h3]
        set cur := jsTrim (r (str "slug_url")) with hcurdef
        set n := normalizeToKebabCase (jsTrim (r (str "location"))) with hndef
        show fixSlugRow (setField r (str "slug_url") (cur ++ 45 :: n)) =
          (setField r (str "slug_url") (cur ++ 45 :: n), 0)
        have hcur_ne : cur ≠ [] := by
          obtain ⟨pre, hpre⟩ := isSuffixOfL_iff.mp h1
          intro h0
          rw [h0] at hpre
          have := List.append_eq_nil.mp hpre
          exact absurd this.2 (by decide)
        have hloc : (setField r (str "slug_url") (cur ++ 45 :: n)) (str "location")
            = r (str "location") := setField_ne r _ (by decide)
        have hslug : (setField r (str "slug_url") (cur ++ 45 :: n)) (str "slug_url")
            = cur ++ 45 :: n := setField_same r _ _
        apply fixSlugRow_eq_of_expected
        rw [hloc, hslug, ← hndef]
        have htrim : jsTrim (cur ++ 45 :: n) = cur ++ 45 :: n := by
          apply jsTrim_eq_self
          · intro a ha
            rw [List.head?_append_of_ne_nil _ hcur_ne] at ha
            exact jsTrim_head_not_ws (hcurdef ▸ ha)
          · intro a ha
            rw [List.getLast?_append_cons] at ha
            cases hgl : n.getLast? with
            | none => exact absurd (List.getLast?_eq_none_iff.mp hgl) h2
            | some b =>
              rw [List.getLast?_cons, hgl] at ha
              cases ha
              exact isLowerKebab_not_ws
                (mem_normalizeToKebabCase (hndef ▸ List.mem_of_getLast?_eq_some hgl))
        rw [htrim, isSuffixOfL_iff]
        obtain ⟨pre, hpre⟩ := isSuffixOfL_iff.mp h1
        exact ⟨pre, by rw [← List.append_assoc, hpre]⟩
  · rw [fixSlugRow_eq_of_not_suffix h1]
    exact fixSlugRow_eq_of_not_suffix h1

lemma processRowsFix_idem (idxs : List Int) : ∀ (i : Nat) (rows : List Row),
    processRowsFix idxs i (processRowsFix idxs i rows).1 =
      ((processRowsFix idxs i rows).1, 0)
  | _, [] => rfl
  | i, r :: rest => by
    have ih := processRowsFix_idem idxs (i + 1) rest
    by_cases hm : (i : Int) ∈ idxs
    · simp only [processRowsFix, if_pos hm, fixSlugRow_idem r, ih]
    · simp only [processRowsFix, if_neg hm, ih]

/-! ### Supporting lemmas for the replacement flows -/

/-- The default row (absent rows read every field as the empty string). -/
def emptyRow : Row := fun _ => []

lemma simpleReplaceRow_get : ∀ (flds : List Str) (t : Str) (r : Row) (f : Str),
    (simpleReplaceRow flds t r).1 f = if f ∈ flds then t else r f
  | [], t, r, f => by simp [simpleReplaceRow]
  | fld :: rest, t, r, f => by
    rw [simpleReplaceRow]
    by_cases hch : t ≠ r fld
    · rw [if_pos hch]
      have ih := simpleReplaceRow_get rest t (setField r fld t) f
      by_cases hf : f ∈ rest
      · simp [ih, hf, List.mem_cons]
      · rw [show (let a := simpleReplaceRow rest t (setField r fld t);
            (a.1, a.2 + 1)).1 = (simpleReplaceRow rest t (setField r fld t)).1 from rfl]
        rw [ih, if_neg hf]
        by_cases hfld : f = fld
        · subst hfld
          simp [setField]
        · simp [setField, hfld, List.mem_cons, hf]
    · rw [if_neg hch]
      push_neg at hch
      rw [simpleReplaceRow_get rest t r f]
      by_cases hf : f ∈ rest
      · simp [hf, List.mem_cons]
      · by_cases hfld : f = fld
        · subst hfld
          simp [List.mem_cons, hf, hch]
        · simp [List.mem_cons, hf, hfld]

lemma applyOperations_frame {headers : List Str} :
    ∀ (ops : List ReplaceOp) (r : Row) (f : Str),
      f ∉ ops.map ReplaceOp.field → (applyOperations headers ops r).1 f = r f
  | [], _, _, _ => rfl
  | op :: rest, r, f, h => by
    simp only [List.map_cons, List.mem_cons, not_or] at h
    have hrest : f ∉ rest.map ReplaceOp.field := h.2
    rw [applyOperations]
    by_cases hhd : op.field ∈ headers
    · rw [if_pos hhd]
      by_cases hne : r op.field ≠ op.value
      · rw [if_pos hne]
        rw [show (let a := applyOperations headers rest (setField r op.field op.value);
            (a.1, a.2.1 + 1, a.2.2.orElse fun _ =>
              if op.field = str "location" then some (r op.field, op.value) else none)).1
            = (applyOperations headers rest (setField r op.field op.value)).1 from rfl]
        rw [applyOperations_frame rest _ f hrest]
        exact setField_ne r _ h.1
      · rw [if_neg hne]
        exact applyOperations_frame rest r f hrest
    · rw [if_neg hhd]
      exact applyOperations_frame rest r f hrest

lemma slugUpdate_frame (headers : List Str) (locRepl : Option (Str × Str))
    (r : Row) {f : Str} (hf : f ≠ str "slug_url") :
    (slugUpdate headers locRepl r).1 f = r f := by
  cases locRepl with
  | none => rfl
  | some lr =>
    rw [slugUpdate]
    by_cases hh : str "slug_url" ∈ headers
    · rw [if_pos hh]
      by_cases hc : containsSub (str "-salary") (jsTrim (r (str "slug_url"))) = true
      · rw [if_pos hc]
        cases hfi : firstIndexOfSub (str "-salary") (jsTrim (r (str "slug_url"))) with
        | none => rfl
        | some idx =>
          dsimp only
          by_cases hne : (if normalizeToKebabCase lr.2 ≠ [] then
              (jsTrim (r (str "slug_url"))).take (idx + 7) ++
                45 :: normalizeToKebabCase lr.2
            else (jsTrim (r (str "slug_url"))).take (idx + 7)) ≠
              jsTrim (r (str "slug_url"))
          · rw [if_pos hne]
            exact setField_ne r _ hf
          · rw [if_neg hne]
      · rw [if_neg hc]
    · rw [if_neg hh]

lemma processRowReplace_frame (headers : List Str) (ops : List ReplaceOp)
    (inSet : Bool) (r : Row) {f : Str} (h1 : f ∉ ops.map ReplaceOp.field)
    (h2 : f ≠ str "slug_url") :
    (processRowReplace headers ops inSet r).1 f = r f := by
  cases inSet with
  | false => rfl
  | true =>
    show (slugUpdate headers (applyOperations headers ops r).2.2
      (applyOperations headers ops r).1).1 f = r f
    rw [slugUpdate_frame headers _ _ h2]
    exact applyOperations_frame ops r f h1

lemma processRowsReplace_length (headers : List Str) (ops : List ReplaceOp)
    (idxs : List Int) : ∀ (i : Nat) (rows : List Row),
    (processRowsReplace headers ops idxs i rows).1.length = rows.length
  | _, [] => rfl
  | i, _ :: rest => by
    simp only [processRowsReplace, List.length_cons,
      processRowsReplace_length headers ops idxs (i + 1) rest]

lemma processRowsReplace_getD_not_mem (headers : List Str) (ops : List ReplaceOp)
    (idxs : List Int) : ∀ (i : Nat) (rows : List Row) (j : Nat),
    ((i + j : Int) ∉ idxs) →
    (processRowsReplace headers ops idxs i rows).1.getD j emptyRow =
      rows.getD j emptyRow
  | _, [], _, _ => rfl
  | i, r :: rest, 0, h => by
    have : ¬ decide ((i : Int) ∈ idxs) = true := by
      simpa using (by simpa using h : (i : Int) ∉ idxs)
    simp only [processRowsReplace, List.getD_cons_zero]
    rw [show processRowReplace headers ops (decide ((i : Int) ∈ idxs)) r
      = processRowReplace headers ops false r from by
        rw [show decide ((i : Int) ∈ idxs) = false from by simpa using this]]
    rfl
  | i, r :: rest, j + 1, h => by
    simp only [processRowsReplace, List.getD_cons_succ]
    apply processRowsReplace_getD_not_mem headers ops idxs (i + 1) rest j
    intro hmem
    apply h
    have : ((i + 1 : Nat) + j : Int) = (i : Int) + (j + 1 : Nat) := by
      push_cast
      ring
    rwa [this] at hmem

lemma processRowsReplace_getD_frame (headers : List Str) (ops : List ReplaceOp)
    (idxs : List Int) {f : Str} (h1 : f ∉ ops.map ReplaceOp.field)
    (h2 : f ≠ str "slug_url") : ∀ (i : Nat) (rows : List Row) (j : Nat),
    ((processRowsReplace headers ops idxs i rows).1.getD j emptyRow) f =
      (rows.getD j emptyRow) f
  | _, [], _ => rfl
  | i, r :: rest, 0 => by
    simp only [processRowsReplace, List.getD_cons_zero]
    exact processRowReplace_frame headers ops _ r h1 h2
  | i, r :: rest, j + 1 => by
    simp only [processRowsReplace, List.getD_cons_succ]
    exact processRowsReplace_getD_frame headers ops idxs h1 h2 (i + 1) rest j

lemma fixSlugRow_frame (r : Row) {f : Str} (hf : f ≠ str "slug_url") :
    (fixSlugRow r).1 f = r f := by
  by_cases h1 : isSuffixOfL (str "-salary") (jsTrim (r (str "slug_url"))) = true
  · by_cases h2 : normalizeToKebabCase (jsTrim (r (str "location"))) = []
    · rw [fixSlugRow_eq_of_norm_nil h2]
    · by_cases h3 : isSuffixOfL
          (str "-salary" ++ 45 :: normalizeToKebabCase (jsTrim (r (str "location"))))
          (jsTrim (r (str "slug_url"))) = true
      · rw [fixSlugRow_eq_of_expected h3]
      · rw [fixSlugRow_eq_fix h1 h2 h3]
        exact setField_ne r _ hf
  · rw [fixSlugRow_eq_of_not_suffix h1]

lemma processRowsFix_length (idxs : List Int) : ∀ (i : Nat) (rows : List Row),
    (processRowsFix idxs i rows).1.length = rows.length
  | _, [] => rfl
  | i, _ :: rest => by
    simp only [processRowsFix, List.length_cons,
      processRowsFix_length idxs (i + 1) rest]

lemma processRowsFix_getD_not_mem (idxs : List Int) :
    ∀ (i : Nat) (rows : List Row) (j : Nat), ((i + j : Int) ∉ idxs) →
    (processRowsFix idxs i rows).1.getD j emptyRow = rows.getD j emptyRow
  | _, [], _, _ => rfl
  | i, r :: rest, 0, h => by
    have hm : ¬ (i : Int) ∈ idxs := by simpa using h
    simp only [processRowsFix, if_neg hm, List.getD_cons_zero]
  | i, r :: rest, j + 1, h => by
    simp only [processRowsFix, List.getD_cons_succ]
    apply processRowsFix_getD_not_mem idxs (i + 1) rest j
    intro hmem
    apply h
    have : ((i + 1 : Nat) + j : Int) = (i : Int) + (j + 1 : Nat) := by
      push_cast
      ring
    rwa [this] at hmem

lemma processRowsFix_getD_frame (idxs : List Int) {f : Str}
    (hf : f ≠ str "slug_url") : ∀ (i : Nat) (rows : List Row) (j : Nat),
    ((processRowsFix idxs i rows).1.getD j emptyRow) f = (rows.getD j emptyRow) f
  | _, [], _ => rfl
  | i, r :: rest, 0 => by
    by_cases hm : (i : Int) ∈ idxs
    · simp only [processRowsFix, if_pos hm, List.getD_cons_zero]
      exact fixSlugRow_frame r hf
    · simp only [processRowsFix, if_neg hm, List.getD_cons_zero]
  | i, r :: rest, j + 1 => by
    simp only [processRowsFix, List.getD_cons_succ]
    exact processRowsFix_getD_frame idxs hf (i + 1) rest j

lemma simpleProcessRows_showOnly (test : Str → Bool) (sf rf : List Str)
    (term : Option Str) : ∀ (rows : List Row),
    (simpleProcessRows test true sf rf term rows).processedRows =
      rows.filterMap (fun r =>
        if test (rowText sf r) then
          some (if isSimpleReplaceMode term then
            (simpleReplaceRow rf (term.getD []) r).1 else r)
        else none)
  | [] => rfl
  | r :: rest => by
    rw [simpleProcessRows, List.filterMap_cons]
    by_cases ht : test (rowText sf r) = true
    · rw [if_pos ht, if_pos ht]
      by_cases hm : isSimpleReplaceMode term = true
      · rw [if_pos hm, if_pos hm]
        simp only [simpleProcessRows_showOnly test sf rf term rest]
      · rw [if_neg hm, if_neg hm]
        simp only [simpleProcessRows_showOnly test sf rf term rest]
    · rw [if_neg ht, if_neg ht, if_pos rfl]
      exact simpleProcessRows_showOnly test sf rf term rest

/-! ## Claim theorems -/

/-- C4: the Slug Normalizer is idempotent — for every input string `x`,
`normalizeToKebabCase (normalizeToKebabCase x) = normalizeToKebabCase x`. -/
theorem claim_C4 (x : Str) :
    normalizeToKebabCase (normalizeToKebabCase x) = normalizeToKebabCase x :=
  normalizeToKebabCase_idem x

/-- C5: the standalone fix-slug-URLs operation is idempotent — running the
fix-slug file operation a second time over the row set produced by the first
run returns exactly that row set and performs zero further fixes, so no
double-suffixing ever occurs. -/
theorem claim_C5 (searchRowIndices : List Int) (saveMode : SaveMode)
    (rows : List Row) :
    (fixFileRun searchRowIndices saveMode
        ((fixFileRun searchRowIndices saveMode rows).processedRows)).processedRows =
      (fixFileRun searchRowIndices saveMode rows).processedRows ∧
    (fixFileRun searchRowIndices saveMode
        ((fixFileRun searchRowIndices saveMode rows).processedRows)).replacements = 0 := by
  have h := processRowsFix_idem (searchRowIndices.map (· - 1)) 0 rows
  constructor
  · show (processRowsFix (searchRowIndices.map (· - 1)) 0
      (processRowsFix (searchRowIndices.map (· - 1)) 0 rows).1).1 =
      (processRowsFix (searchRowIndices.map (· - 1)) 0 rows).1
    rw [h]
  · show (processRowsFix (searchRowIndices.map (· - 1)) 0
      (processRowsFix (searchRowIndices.map (· - 1)) 0 rows).1).2 = 0
    rw [h]

/-- C6: in advanced mode every blank-valued condition (empty or
whitespace-only value) is excluded from evaluation as imposing no
constraint — evaluating a config is the same as evaluating it with blank
conditions filtered away — and when all conditions are blank the evaluator
reports a match for every row. -/
theorem claim_C6 (rt : RegexTest) (headers : List Str) :
    (∀ (r : Row) (cfg : AdvancedSearchConfig),
      rowMatchesAdvanced rt r headers cfg =
        rowMatchesAdvanced rt r headers
          ⟨cfg.conditions.filter isActiveCond, cfg.logic, cfg.caseSensitive⟩) ∧
    (∀ (r : Row) (cfg : AdvancedSearchConfig),
      (∀ c ∈ cfg.conditions, jsTrim c.value = []) →
      (rowMatchesAdvanced rt r headers cfg).1 = true) := by
  constructor
  · intro r cfg
    have hff : (cfg.conditions.filter isActiveCond).filter isActiveCond =
        cfg.conditions.filter isActiveCond := by
      rw [List.filter_filter]
      congr 1
      funext a
      exact Bool.and_self _
    rw [rowMatchesAdvanced, rowMatchesAdvanced]
    dsimp only
    rw [hff]
  · intro r cfg hblank
    have hnil : cfg.conditions.filter isActiveCond = [] := by
      rw [List.filter_eq_nil_iff]
      intro c hc
      simp [isActiveCond, hblank c hc]
    simp [rowMatchesAdvanced, hnil]

/-- C6 witness: an advanced AND search with a single condition whose value
is the empty string matches an arbitrary row. -/
theorem claim_C6_witness :
    (rowMatchesAdvanced (fun _ _ _ => false) emptyRow [str "state"]
      ⟨[⟨str "state", [], MatchMode.equals⟩], AdvancedLogic.AND, false⟩).1 = true :=
  (claim_C6 (fun _ _ _ => false) [str "state"]).2 emptyRow
    ⟨[⟨str "state", [], MatchMode.equals⟩], AdvancedLogic.AND, false⟩ (by decide)

/-- C8: in the multi-condition replace path, an operation whose submitted
value is the literal `"empty"` (trimmed, case-insensitively) is interpreted
as the empty string by the client, so the server sets the target field of
every matched row to the empty string. -/
theorem claim_C8 (headers : List Str) (f v : Str) (r : Row)
    (hv : jsLower (jsTrim v) = str "empty") (hf : f ∈ headers) :
    (processRowReplace headers [⟨f, interpretReplaceValue v⟩] true r).1 f = [] := by
  have hiv : interpretReplaceValue v = [] := by
    rw [interpretReplaceValue, if_pos hv]
  have hA1 : (applyOperations headers [⟨f, interpretReplaceValue v⟩] r).1 f = [] := by
    rw [hiv, applyOperations, if_pos hf]
    by_cases hne : r f ≠ ([] : Str)
    · rw [if_pos hne]
      exact setField_same r f []
    · rw [if_neg hne]
      push_neg at hne
      exact hne
  have hfinal : (processRowReplace headers [⟨f, interpretReplaceValue v⟩] true r).1 =
      (slugUpdate headers
        (applyOperations headers [⟨f, interpretReplaceValue v⟩] r).2.2
        (applyOperations headers [⟨f, interpretReplaceValue v⟩] r).1).1 := rfl
  rw [hfinal]
  by_cases hfs : f = str "slug_url"
  · have hA2 : (applyOperations headers [⟨f, interpretReplaceValue v⟩] r).2.2 = none := by
      rw [hiv, applyOperations, if_pos hf]
      by_cases hne : r f ≠ ([] : Str)
      · rw [if_pos hne]
        dsimp only
        rw [show applyOperations headers [] (setField r f []) = (setField r f [], 0, none)
          from rfl]
        show (Option.orElse none fun _ =>
          if f = str "location" then some (r f, []) else none) = none
        rw [show f = str "slug_url" from hfs]
        rw [Option.orElse]
        simp only [if_neg (show ¬str "slug_url" = str "location" by decide)]
      · rw [if_neg hne]
        rfl
    rw [hA2, slugUpdate]
    exact hA1
  · rw [slugUpdate_frame headers _ _ hfs]
    exact hA1

/-- C8 witness: value `" EMPTY "` on field `state` of a matched row whose
current value is `"CA"` yields the empty string. -/
theorem claim_C8_witness :
    jsLower (jsTrim (str " EMPTY ")) = str "empty" ∧
    (processRowReplace [str "state"]
      [⟨str "state", interpretReplaceValue (str " EMPTY ")⟩] true
      (fun _ => str "CA")).1 (str "state") = [] :=
  ⟨by decide, claim_C8 [str "state"] (str "state") (str " EMPTY ")
    (fun _ => str "CA") (by decide) (by decide)⟩

/-- C2: in the multi-field replace pathway, when a replace operation changed
the `location` field of a targeted row (the operations produced a location
replacement `lr`), `slug_url` exists in the headers, and the row's
(whitespace-free) `slug_url` value ends with the literal `-salary`, the
resulting `slug_url` is the substring up to and including `-salary`, with
`-<normalized new location>` appended when the slug-normalized new location
is non-empty and the bare `-salary` base otherwise. -/
theorem claim_C2 (headers : List Str) (ops : List ReplaceOp) (r : Row)
    (lr : Str × Str)
    (hloc : (applyOperations headers ops r).2.2 = some lr)
    (hhdr : str "slug_url" ∈ headers)
    (htrim : jsTrim ((applyOperations headers ops r).1 (str "slug_url")) =
      (applyOperations headers ops r).1 (str "slug_url"))
    (hsuf : isSuffixOfL (str "-salary")
      ((applyOperations headers ops r).1 (str "slug_url")) = true) :
    (processRowReplace headers ops true r).1 (str "slug_url") =
      ((applyOperations headers ops r).1 (str "slug_url")).take
          ((firstIndexOfSub (str "-salary")
            ((applyOperations headers ops r).1 (str "slug_url"))).getD 0 + 7) ++
        (if normalizeToKebabCase lr.2 = [] then []
         else 45 :: normalizeToKebabCase lr.2) := by
  have hpr : (processRowReplace headers ops true r).1 =
      (slugUpdate headers (applyOperations headers ops r).2.2
        (applyOperations headers ops r).1).1 := rfl
  rw [hpr, hloc]
  set r1 := (applyOperations headers ops r).1 with hr1
  set cur := r1 (str "slug_url") with hcurdef
  rw [slugUpdate, if_pos hhdr, htrim]
  have hcont : containsSub (str "-salary") cur = true :=
    containsSub_iff.mpr ( List.IsSuffix.isInfix (isSuffixOfL_iff.mp hsuf))
  rw [if_pos hcont]
  obtain ⟨idx, hidx⟩ := Option.isSome_iff_exists.mp (firstIndexOfSub_isSome hcont)
  rw [hidx]
  dsimp only
  rw [Option.getD_some]
  by_cases hne : (if normalizeToKebabCase lr.2 ≠ [] then
      cur.take (idx + 7) ++ 45 :: normalizeToKebabCase lr.2
    else cur.take (idx + 7)) ≠ cur
  · rw [if_pos hne]
    dsimp only
    rw [setField_same]
    by_cases hn : normalizeToKebabCase lr.2 = []
    · rw [if_neg (by simpa using hn), if_pos hn, List.append_nil]
    · rw [if_pos hn, if_neg hn]
  · rw [if_neg hne]
    push_neg at hne
    show cur = List.take (idx + 7) cur ++
      (if normalizeToKebabCase lr.2 = [] then [] else 45 :: normalizeToKebabCase lr.2)
    refine hne.symm.trans ?_
    by_cases hn : normalizeToKebabCase lr.2 = []
    · rw [if_neg (by simpa using hn), if_pos hn, List.append_nil]
    · rw [if_pos hn, if_neg hn]

/-- C2 witness: the spec's derived-field example — a targeted row
`{slug_url: "engineer-salary", location: "Old"}` whose location is replaced
by `"São Paulo"` ends with `slug_url = "engineer-salary-sao-paulo"`. -/
theorem claim_C2_witness :
    (applyOperations [str "slug_url", str "location"]
        [⟨str "location", str "São Paulo"⟩]
        (fun f => if f = str "slug_url" then str "engineer-salary"
          else if f = str "location" then str "Old" else [])).2.2 =
      some (str "Old", str "São Paulo") ∧
    (processRowReplace [str "slug_url", str "location"]
        [⟨str "location", str "São Paulo"⟩] true
        (fun f => if f = str "slug_url" then str "engineer-salary"
          else if f = str "location" then str "Old" else [])).1 (str "slug_url") =
      str "engineer-salary-sao-paulo" := by
  constructor
  · decide
  · have h := claim_C2 [str "slug_url", str "location"]
      [⟨str "location", str "São Paulo"⟩]
      (fun f => if f = str "slug_url" then str "engineer-salary"
        else if f = str "location" then str "Old" else [])
      (str "Old", str "São Paulo") (by decide) (by decide) (by decide) (by decide)
    rw [h]
    decide

/-- C9 (implicit frame property): in the replace and fix-slug-URLs
endpoints, the output row list has exactly one row per input row in input
order (equal length, position-wise correspondence); every row whose 1-based
index is not in the submitted search-result row set is returned unchanged;
and in a targeted row every field other than the operations' target fields
(and `slug_url`, via the derived-field rule) keeps its old value — for the
fix route, every field other than `slug_url` keeps its old value. -/
theorem claim_C9 (headers : List Str) (ops : List ReplaceOp) (sri : List Int)
    (saveMode : SaveMode) (rows : List Row) :
    ((replaceFileRun headers ops sri saveMode rows).processedRows.length = rows.length) ∧
    (∀ j : Nat, ((j : Int) + 1 ∉ sri) →
      (replaceFileRun headers ops sri saveMode rows).processedRows.getD j emptyRow =
        rows.getD j emptyRow) ∧
    (∀ (j : Nat) (f : Str), f ∉ ops.map ReplaceOp.field → f ≠ str "slug_url" →
      ((replaceFileRun headers ops sri saveMode rows).processedRows.getD j emptyRow) f =
        (rows.getD j emptyRow) f) ∧
    ((fixFileRun sri saveMode rows).processedRows.length = rows.length) ∧
    (∀ j : Nat, ((j : Int) + 1 ∉ sri) →
      (fixFileRun sri saveMode rows).processedRows.getD j emptyRow =
        rows.getD j emptyRow) ∧
    (∀ (j : Nat) (f : Str), f ≠ str "slug_url" →
      ((fixFileRun sri saveMode rows).processedRows.getD j emptyRow) f =
        (rows.getD j emptyRow) f) := by
  have hmap : ∀ j : Nat, ((j : Int) + 1 ∉ sri) →
      ((0 + j : Int) ∉ sri.map (· - 1)) := by
    intro j hj hmem
    apply hj
    simp only [List.mem_map] at hmem
    obtain ⟨x, hx, he⟩ := hmem
    have hxe : x = (j : Int) + 1 := by omega
    rwa [hxe] at hx
  refine ⟨?_, ?_, ?_, ?_, ?_, ?_⟩
  · exact processRowsReplace_length headers ops (sri.map (· - 1)) 0 rows
  · intro j hj
    exact processRowsReplace_getD_not_mem headers ops (sri.map (· - 1)) 0 rows j
      (hmap j hj)
  · intro j f h1 h2
    exact processRowsReplace_getD_frame headers ops (sri.map (· - 1)) h1 h2 0 rows j
  · exact processRowsFix_length (sri.map (· - 1)) 0 rows
  · intro j hj
    exact processRowsFix_getD_not_mem (sri.map (· - 1)) 0 rows j (hmap j hj)
  · intro j f hf
    exact processRowsFix_getD_frame (sri.map (· - 1)) hf 0 rows j

/-- C9 witness: a two-row file where only row 1 is targeted — row 2 (1-based
index 2, not in the submitted set) is unchanged, and the untargeted `other`
field of row 1 keeps its value, in both endpoints. -/
theorem claim_C9_witness :
    (replaceFileRun [str "location", str "other"] [⟨str "location", str "X"⟩]
      [(1 : Int)] SaveMode.filebrowser
      [fun _ => str "a", fun _ => str "b"]).processedRows.length = 2 ∧
    ((2 : Int) + 1 ∉ [(1 : Int)] →
      (replaceFileRun [str "location", str "other"] [⟨str "location", str "X"⟩]
        [(1 : Int)] SaveMode.filebrowser
        [fun _ => str "a", fun _ => str "b"]).processedRows.getD 2 emptyRow =
        [fun _ => str "a", fun _ => str "b"].getD 2 emptyRow) ∧
    (str "other" ∉ [ReplaceOp.mk (str "location") (str "X")].map ReplaceOp.field →
      str "other" ≠ str "slug_url" →
      ((replaceFileRun [str "location", str "other"] [⟨str "location", str "X"⟩]
        [(1 : Int)] SaveMode.filebrowser
        [fun _ => str "a", fun _ => str "b"]).processedRows.getD 0 emptyRow)
          (str "other") =
        ([fun _ => str "a", fun _ => str "b"].getD 0 emptyRow) (str "other")) := by
  have h := claim_C9 [str "location", str "other"] [⟨str "location", str "X"⟩]
    [(1 : Int)] SaveMode.filebrowser [fun _ => str "a", fun _ => str "b"]
  exact ⟨h.1, fun hj => h.2.1 2 hj, fun h1 h2 => h.2.2.1 0 (str "other") h1 h2⟩

/-- C10 (implicit): in the simple-mode flow with `showOnlyMatches = true`,
rows failing the search test are omitted from the processed row list, and
when a non-empty replacement term is supplied the persisted output — in
every save mode, including overwrite — consists of exactly the matching
rows (with the replacement applied). -/
theorem claim_C10 (test : Str → Bool) (sf rf : List Str) (t : Str)
    (saveMode : SaveMode) (rows : List Row) (term : Option Str)
    (hterm : term = some t) (ht : t ≠ []) :
    (simpleProcessRows test true sf rf term rows).processedRows =
      rows.filterMap (fun r =>
        if test (rowText sf r) then
          some (if isSimpleReplaceMode term then
            (simpleReplaceRow rf (term.getD []) r).1 else r)
        else none) ∧
    simpleFileOutput term saveMode (simpleProcessRows test true sf rf term rows) =
      some (saveMode, rows.filterMap (fun r =>
        if test (rowText sf r) then
          some (if isSimpleReplaceMode term then
            (simpleReplaceRow rf (term.getD []) r).1 else r)
        else none)) := by
  have h := simpleProcessRows_showOnly test sf rf term rows
  refine ⟨h, ?_⟩
  subst hterm
  rw [simpleFileOutput]
  rw [if_pos ht, h]

/-- C10 witness: one matching and one non-matching row, overwrite save mode,
replacement term `"y"` — the persisted artifact drops the non-matching row. -/
theorem claim_C10_witness :
    str "y" ≠ [] ∧
    simpleFileOutput (some (str "y")) SaveMode.overwrite
      (simpleProcessRows (fun s => containsSub (str "x") s) true [str "a"] [str "a"]
        (some (str "y")) [fun _ => str "x", fun _ => str "z"]) =
      some (SaveMode.overwrite,
        [fun _ => str "x", fun _ => str "z"].filterMap (fun r =>
          if containsSub (str "x") (rowText [str "a"] r) then
            some (if isSimpleReplaceMode (some (str "y")) then
              (simpleReplaceRow [str "a"] ((some (str "y")).getD []) r).1 else r)
          else none)) :=
  ⟨by decide, (claim_C10 (fun s => containsSub (str "x") s) [str "a"] [str "a"]
    (str "y") SaveMode.overwrite [fun _ => str "x", fun _ => str "z"]
    (some (str "y")) rfl (by decide)).2⟩

/-- C1 counterexample: in simple replace mode, a matching row
`{f: "abc"}` searched with term `"b"` and replacement `"X"` gets its field
set to the whole-value `"X"`, not to the in-place regex substitution result
`"aXc"` the claim predicts — non-matched portions are not preserved. -/
theorem claim_C1_counterexample :
    containsSub (str "b") (rowText [str "f"] (fun _ => str "abc")) = true ∧
    ((simpleProcessRows (fun s => containsSub (str "b") s) false [str "f"]
        [str "f"] (some (str "X")) [fun _ => str "abc"]).processedRows.getD 0
      emptyRow) (str "f") = str "X" ∧
    specRegexSubstitute (str "b") (str "X") (str "abc") = str "aXc" ∧
    ((simpleProcessRows (fun s => containsSub (str "b") s) false [str "f"]
        [str "f"] (some (str "X")) [fun _ => str "abc"]).processedRows.getD 0
      emptyRow) (str "f") ≠
      specRegexSubstitute (str "b") (str "X") (str "abc") := by
  refine ⟨by decide, by decide, by decide, by decide⟩

/-- C1 (amended): in simple mode, when a non-empty replacement term is
supplied, every row matching the search test gets each selected field
overwritten wholly with the replacement term (fields outside the selected
set keep their old values); no in-place regex substitution is performed. -/
theorem claim_C1_amended (test : Str → Bool) (showOnly : Bool) (sf rf : List Str)
    (t : Str) (r : Row) (rest : List Row) (ht : t ≠ [])
    (hmatch : test (rowText sf r) = true) :
    (simpleProcessRows test showOnly sf rf (some t) (r :: rest)).processedRows =
      (simpleReplaceRow rf t r).1 ::
        (simpleProcessRows test showOnly sf rf (some t) rest).processedRows ∧
    (∀ f ∈ rf, (simpleReplaceRow rf t r).1 f = t) ∧
    (∀ f, f ∉ rf → (simpleReplaceRow rf t r).1 f = r f) := by
  have hmode : isSimpleReplaceMode (some t) = true := by
    simp [isSimpleReplaceMode, ht]
  refine ⟨?_, ?_, ?_⟩
  · rw [simpleProcessRows, if_pos hmatch, if_pos hmode]
    rfl
  · intro f hf
    rw [simpleReplaceRow_get, if_pos hf]
  · intro f hf
    rw [simpleReplaceRow_get, if_neg hf]

/-- C1 witness: the amended claim at the counterexample's input — the
selected field `f` becomes `"X"` and an unselected field `g` is untouched. -/
theorem claim_C1_witness :
    (simpleProcessRows (fun s => containsSub (str "b") s) false [str "f"]
        [str "f"] (some (str "X")) [fun _ => str "abc"]).processedRows =
      (simpleReplaceRow [str "f"] (str "X") (fun _ => str "abc")).1 ::
        (simpleProcessRows (fun s => containsSub (str "b") s) false [str "f"]
          [str "f"] (some (str "X")) []).processedRows ∧
    (∀ f ∈ [str "f"],
      (simpleReplaceRow [str "f"] (str "X") (fun _ => str "abc")).1 f = str "X") ∧
    (∀ f, f ∉ [str "f"] →
      (simpleReplaceRow [str "f"] (str "X") (fun _ => str "abc")).1 f =
        (fun _ => str "abc") f) :=
  claim_C1_amended (fun s => containsSub (str "b") s) false [str "f"] [str "f"]
    (str "X") (fun _ => str "abc") [] (by decide) (by decide)

/-- C3 counterexample: a simple-mode replace run over a file in which zero
field values changed (the only matching row already carries the replacement
value) still persists an output artifact, in overwrite save mode. -/
theorem claim_C3_counterexample :
    (simpleProcessRows (fun _ => true) false [str "a"] [str "a"] (some (str "X"))
      [fun _ => str "X"]).fileReplacements = 0 ∧
    (simpleFileOutput (some (str "X")) SaveMode.overwrite
      (simpleProcessRows (fun _ => true) false [str "a"] [str "a"]
        (some (str "X")) [fun _ => str "X"])).isSome = true := by
  refine ⟨by decide, by decide⟩

/-- C3 (amended): the dedicated replace and fix-slug endpoints persist an
output artifact exactly when at least one field value changed
(`fileReplacements > 0`); the process endpoint (simple and advanced flows)
persists output exactly when replace mode is active, regardless of whether
any field value changed. -/
theorem claim_C3_amended (headers : List Str) (ops : List ReplaceOp)
    (sri : List Int) (saveMode : SaveMode) (rows : List Row) (term : Option Str)
    (rt : RegexTest) (adv : AdvancedSearchConfig) (rtf rv : Option Str)
    (showOnly : Bool) (test : Str → Bool) (sf rf : List Str) :
    ((replaceFileRun headers ops sri saveMode rows).output.isSome = true ↔
      0 < (replaceFileRun headers ops sri saveMode rows).replacements) ∧
    ((fixFileRun sri saveMode rows).output.isSome = true ↔
      0 < (fixFileRun sri saveMode rows).replacements) ∧
    ((simpleFileOutput term saveMode
        (simpleProcessRows test showOnly sf rf term rows)).isSome = true ↔
      isSimpleReplaceMode term = true) ∧
    ((advancedFileOutput rtf rv saveMode
        (advancedProcessRows rt adv headers rtf rv showOnly rows)).isSome = true ↔
      isAdvancedReplaceMode rtf rv = true) := by
  refine ⟨?_, ?_, ?_, ?_⟩
  · show (if 0 < (processRowsReplace headers ops (sri.map (· - 1)) 0 rows).2
        then some (saveMode, (processRowsReplace headers ops (sri.map (· - 1)) 0 rows).1)
        else none).isSome = true ↔ _
    by_cases h : 0 < (processRowsReplace headers ops (sri.map (· - 1)) 0 rows).2
    · rw [if_pos h]
      exact iff_of_true rfl h
    · rw [if_neg h]
      exact iff_of_false (by simp) h
  · show (if 0 < (processRowsFix (sri.map (· - 1)) 0 rows).2
        then some (saveMode, (processRowsFix (sri.map (· - 1)) 0 rows).1)
        else none).isSome = true ↔ _
    by_cases h : 0 < (processRowsFix (sri.map (· - 1)) 0 rows).2
    · rw [if_pos h]
      exact iff_of_true rfl h
    · rw [if_neg h]
      exact iff_of_false (by simp) h
  · cases term with
    | none => simp [simpleFileOutput, isSimpleReplaceMode]
    | some t =>
      by_cases ht : t = []
      · simp [simpleFileOutput, isSimpleReplaceMode, ht]
      · simp [simpleFileOutput, isSimpleReplaceMode, ht]
  · rw [advancedFileOutput]
    by_cases h : isAdvancedReplaceMode rtf rv = true
    · simp [h]
    · simp [h]

/-- C3 witness: the amended claim instantiated — a replace-route file with
one real change persists output, and the counterexample's simple-mode file
persists output although nothing changed. -/
theorem claim_C3_witness :
    ((replaceFileRun [str "a"] [⟨str "a", str "X"⟩] [(1 : Int)]
        SaveMode.filebrowser [fun _ => str "b"]).output.isSome = true ↔
      0 < (replaceFileRun [str "a"] [⟨str "a", str "X"⟩] [(1 : Int)]
        SaveMode.filebrowser [fun _ => str "b"]).replacements) :=
  (claim_C3_amended [str "a"] [⟨str "a", str "X"⟩] [(1 : Int)]
    SaveMode.filebrowser [fun _ => str "b"] (some (str "X"))
    (fun _ _ _ => false) ⟨[], AdvancedLogic.AND, false⟩ none none false
    (fun _ => true) [str "a"] [str "a"]).1

/-- C7 counterexample: a replace-oriented simple-mode run (non-empty
replacement term) over a file that produced zero replacements still counts
the file as processed (`processedFiles` increments by 1). -/
theorem claim_C7_counterexample :
    isSimpleReplaceMode (some (str "X")) = true ∧
    (simpleProcessRows (fun _ => true) false [str "a"] [str "a"] (some (str "X"))
      [fun _ => str "X"]).fileReplacements = 0 ∧
    simpleProcessedInc (simpleProcessRows (fun _ => true) false [str "a"]
      [str "a"] (some (str "X")) [fun _ => str "X"]) = 1 := by
  refine ⟨by decide, by decide, rfl⟩

/-- C7 (amended): the dedicated replace and fix-slug endpoints increment
`processedFiles` exactly for files that produced at least one replacement;
the process endpoint (simple and advanced flows) increments it for every
successfully processed file, in search and replace modes alike. -/
theorem claim_C7_amended (headers : List Str) (ops : List ReplaceOp)
    (sri : List Int) (saveMode : SaveMode) (rows : List Row) (term : Option Str)
    (rt : RegexTest) (adv : AdvancedSearchConfig) (rtf rv : Option Str)
    (showOnly : Bool) (test : Str → Bool) (sf rf : List Str) :
    ((replaceFileRun headers ops sri saveMode rows).processedInc = 1 ↔
      0 < (replaceFileRun headers ops sri saveMode rows).replacements) ∧
    ((fixFileRun sri saveMode rows).processedInc = 1 ↔
      0 < (fixFileRun sri saveMode rows).replacements) ∧
    simpleProcessedInc (simpleProcessRows test showOnly sf rf term rows) = 1 ∧
    advancedProcessedInc
      (advancedProcessRows rt adv headers rtf rv showOnly rows) = 1 := by
  refine ⟨?_, ?_, rfl, rfl⟩
  · show (if 0 < (processRowsReplace headers ops (sri.map (· - 1)) 0 rows).2
        then 1 else 0) = 1 ↔ _
    by_cases h : 0 < (processRowsReplace headers ops (sri.map (· - 1)) 0 rows).2
    · rw [if_pos h]
      exact iff_of_true rfl h
    · rw [if_neg h]
      exact iff_of_false (by decide) h
  · show (if 0 < (processRowsFix (sri.map (· - 1)) 0 rows).2
        then 1 else 0) = 1 ↔ _
    by_cases h : 0 < (processRowsFix (sri.map (· - 1)) 0 rows).2
    · rw [if_pos h]
      exact iff_of_true rfl h
    · rw [if_neg h]
      exact iff_of_false (by decide) h

/-- C7 witness: the amended claim instantiated at a replace-route file. -/
theorem claim_C7_witness :
    ((replaceFileRun [str "a"] [⟨str "a", str "X"⟩] [(1 : Int)]
        SaveMode.filebrowser [fun _ => str "b"]).processedInc = 1 ↔
      0 < (replaceFileRun [str "a"] [⟨str "a", str "X"⟩] [(1 : Int)]
        SaveMode.filebrowser [fun _ => str "b"]).replacements) :=
  (claim_C7_amended [str "a"] [⟨str "a", str "X"⟩] [(1 : Int)]
    SaveMode.filebrowser [fun _ => str "b"] (some (str "X"))
    (fun _ _ _ => false) ⟨[], AdvancedLogic.AND, false⟩ none none false
    (fun _ => true) [str "a"] [str "a"]).1

end CsvAnalyze
